import Mathlib

/-!
Verification of the Idris C runtime core (`src/rts/idris_rts.c`) against its
natural-language specification.

The development shallowly embeds the parts of the runtime the claims are
about:

* the bump allocator (`allocate`, `idris_requireAlloc`, `space`) over a heap
  modelled as a bump offset, an end offset and a byte memory `Nat → Nat`
  (addresses are offsets from the heap base, which `malloc` returns 8-byte
  aligned; machine words are 8 bytes, LP64);
* string primitives (`idris_strTail`, `MKSTROFFc`, `idris_strRev`,
  `idris_castIntStr`, `idris_castStrInt`) — C strings are byte lists;
* buffer primitives (`internal_allocate`, `idris_buffer_allocate`,
  `internal_prepare_append`, the `appendB*`/`peekB*` families);
* the SIMD vector constructors (`MKB32x4const`);
* the mailbox (`idris_sendMessage`, `idris_getMessageFrom`,
  `idris_recvMessageFrom`), where the inbox is the list of populated slots
  `inbox[0 .. write-1]`.

The collector `idris_gc` lives in `idris_gc.c`, which is not part of the
sources under verification; allocation paths that would invoke it are
modelled as reporting that a collection ran (flag `gcRan`) and stopping,
since every claim below concerns collection-free execution or merely
whether a collection was triggered.
-/

namespace IdrisRTS

/-- Bytes in a machine word (`sizeof(size_t)`, LP64). -/
def wordBytes : Nat := 8

/-- `sizeof(Closure)` on LP64: a 4-byte `ClosureType` tag padded to 8,
followed by an 8-byte union. -/
def sizeofClosure : Nat := 16

/-- The size rounding in `allocate`:
`if ((size & 7)!=0) { size = 8 + ((size >> 3) << 3); }`. -/
def round8 (size : Nat) : Nat :=
  if size % 8 ≠ 0 then 8 + size / 8 * 8 else size

/-- Heap bytes one `allocate(size)` call consumes: the rounded size plus the
word-sized chunk-length prefix. -/
def chunkOf (size : Nat) : Nat := round8 size + wordBytes

/-- Byte memory: store the word `val` little-endian at offsets
`[off, off+8)` (the `*((size_t*)(vm->heap.next)) = chunk_size;` store). -/
def writeWord (m : Nat → Nat) (off val : Nat) : Nat → Nat :=
  fun a => if off ≤ a ∧ a < off + 8 then val / 256 ^ (a - off) % 256 else m a

/-- Byte memory: `memset(ptr, 0, len)`. -/
def zeroFill (m : Nat → Nat) (off len : Nat) : Nat → Nat :=
  fun a => if off ≤ a ∧ a < off + len then 0 else m a

/-- Byte memory: store one byte (`cl->info.str[i] = c`). -/
def writeByte (m : Nat → Nat) (a v : Nat) : Nat → Nat :=
  fun b => if b = a then v else m b

/-- Read back the little-endian word at `[off, off+8)` (the chunk-length
prefix the collector reads). -/
def decodeWord (m : Nat → Nat) (off : Nat) : Nat :=
  m off + m (off + 1) * 256 + m (off + 2) * 65536 + m (off + 3) * 16777216 +
    m (off + 4) * 4294967296 + m (off + 5) * 1099511627776 +
    m (off + 6) * 281474976710656 + m (off + 7) * 72057594037927936

/-- The VM heap, as the claims see it: the bump offset `next`, the end
offset `heapEnd` (both relative to the heap base), the byte contents and
the collection counter from `vm->stats`. -/
structure Heap where
  next : Nat
  heapEnd : Nat
  mem : Nat → Nat
  collections : Nat

/-- Modelled from the spec: a fresh heap from `alloc_heap(&heap, size, ...)`
(in `idris_heap.c`, not under `src/`): `next` at the base, `end` a full
`heap_size` past it, contents irrelevant until zeroed by `allocate`. -/
def freshHeap (heapSize : Nat) : Heap :=
  { next := 0, heapEnd := heapSize, mem := fun _ => 0, collections := 0 }

/-- Result of one `allocate` call: the payload pointer (offset), the heap
afterwards, and whether the collector was invoked. -/
structure AllocRes where
  ptr : Nat
  heap : Heap
  gcRan : Bool

/-- `allocate(size, outerlock)`: round the size to an 8-byte multiple,
and if `next + chunk_size < end` store the chunk length at `next`, zero the
payload, and bump `next`; otherwise call `idris_gc`. The collector itself
is not in the verified sources, so the collection branch records that a
collection ran and stops instead of retrying. -/
def allocate (size : Nat) (h : Heap) : AllocRes :=
  let sz := round8 size
  let chunk := sz + wordBytes
  if h.next + chunk < h.heapEnd then
    { ptr := h.next + wordBytes
      heap := { next := h.next + chunk
                heapEnd := h.heapEnd
                mem := zeroFill (writeWord h.mem h.next chunk) (h.next + wordBytes) sz
                collections := h.collections }
      gcRan := false }
  else
    { ptr := 0
      heap := { h with collections := h.collections + 1 }
      gcRan := true }

/-- `idris_requireAlloc(size)`: `if (!(heap.next + size < heap.end)) idris_gc(vm);`
(the lock manipulation is thread-level and has no sequential content).
Returns the heap and whether the collector was invoked. -/
def idris_requireAlloc (size : Nat) (h : Heap) : Heap × Bool :=
  if h.next + size < h.heapEnd then (h, false)
  else ({ h with collections := h.collections + 1 }, true)

/-- `space(vm, size)`: `heap.next + size + sizeof(size_t) < heap.end`. -/
def space (h : Heap) (size : Nat) : Bool :=
  h.next + size + wordBytes < h.heapEnd

/-- Run a sequence of `allocate` calls, collecting the returned payload
pointers, the final heap, and whether any collection ran. -/
def allocSeq : List Nat → Heap → List Nat × Heap × Bool
  | [], h => ([], h, false)
  | s :: rest, h =>
    let r := allocate s h
    let t := allocSeq rest r.heap
    (r.ptr :: t.1, t.2.1, r.gcRan || t.2.2)

/-- The payload pointers a collection-free run of `allocSeq` hands out,
computed arithmetically. -/
def scanPtrs (next : Nat) : List Nat → List Nat
  | [] => []
  | s :: rest => (next + wordBytes) :: scanPtrs (next + chunkOf s) rest

/-! ### SIMD vector constructors (claim C4) -/

/-- Modelled from the spec: the `ClosureType` enumeration from
`idris_rts.h` (not under `src/`); the spec's object table lists exactly
these variants. -/
inductive ClosureType where
  | CON | INT | BIGINT | FLOAT | STRING | STROFFSET | BITS8 | BITS16
  | BITS32 | BITS64 | UNIT | PTR | FWD | MANAGEDPTR | BUFFER
  | BITS8X16 | BITS16X8 | BITS32X4 | BITS64X2
deriving DecidableEq

/-- A 128-bit vector object: the tag `SETTY` stamped on it and the lane
data loaded into its 16-byte-aligned payload. -/
structure VecObj where
  ty : ClosureType
  lanes : List Nat

/-- `MKB32x4const(vm, v0, v1, v2, v3)`: allocates, then `SETTY(cl, BITS64X2)`
(sic — the source stamps the 64x2 tag), then stores the four 32-bit lanes. -/
def MKB32x4const (v0 v1 v2 v3 : Nat) : VecObj :=
  { ty := ClosureType.BITS64X2, lanes := [v0, v1, v2, v3] }

/-- `MKB32x4(vm, v0, .., v3)`: reads `vi->info.bits32` of four BITS32
arguments (modelled as the raw 32-bit values) and defers to `MKB32x4const`. -/
def MKB32x4 (v0 v1 v2 v3 : Nat) : VecObj :=
  MKB32x4const v0 v1 v2 v3

/-! ### String values: STROFFSET chains (claim C7) -/

/-- String-shaped runtime values: a STRING closure with its byte contents,
or a STROFFSET closure `(root, offset)`. -/
inductive SVal where
  | str : List Nat → SVal
  | strOffset : SVal → Nat → SVal
deriving DecidableEq

/-- `ISSTR(x)`: the closure carries the STRING tag. -/
def isStr : SVal → Bool
  | SVal.str _ => true
  | SVal.strOffset _ _ => false

/-- The root-finding loop of `idris_strTail`:
`while(root!=NULL && !ISSTR(root)) { offset += root->info.str_offset->offset; root = root->info.str_offset->str; }`
with accumulator `acc` for `offset`. -/
def findRootAcc : SVal → Nat → SVal × Nat
  | SVal.str s, acc => (SVal.str s, acc)
  | SVal.strOffset root off, acc => findRootAcc root (acc + off)

/-- `GETSTR`: a STRING reads its bytes; a STROFFSET reads its root's bytes
from `offset` on (`GETSTROFF` reads one level; the recursive reading here
coincides with it on the depth-at-most-1 values the runtime maintains). -/
def getStr : SVal → List Nat
  | SVal.str s => s
  | SVal.strOffset root off => (getStr root).drop off

/-- `idris_strTail(vm, str)`: when `space(vm, sizeof(Closure)+sizeof(StrOffset))`
holds, build a STROFFSET from the walked-to root and the accumulated offset
plus one; otherwise `MKSTR(vm, GETSTR(str)+1)` — a fresh STRING copy of the
tail. `hasSpace` is the value of that `space` test. -/
def idris_strTail (hasSpace : Bool) (str : SVal) : SVal :=
  if hasSpace then
    let r := findRootAcc str 0
    SVal.strOffset r.1 (r.2 + 1)
  else
    SVal.str ((getStr str).drop 1)

/-- `MKSTROFFc(vm, off)`: allocates a STROFFSET closure and copies the
`str` and `offset` fields of its argument verbatim. -/
def MKSTROFFc (root : SVal) (offset : Nat) : SVal :=
  SVal.strOffset root offset

/-- Number of STROFFSET links above the underlying STRING. -/
def chainDepth : SVal → Nat
  | SVal.str _ => 0
  | SVal.strOffset root _ => chainDepth root + 1

/-- The root STRING a chain bottoms out in. -/
def rootOf : SVal → SVal
  | SVal.str s => SVal.str s
  | SVal.strOffset root _ => rootOf root

/-- The total offset accumulated along a chain. -/
def totalOffset : SVal → Nat
  | SVal.str _ => 0
  | SVal.strOffset root off => off + totalOffset root

/-! ### Integer/string casts (claim C6)

C strings are byte lists: `'0'..'9' = 48..57`, `'-' = 45`, `'+' = 43`,
`' ' = 32`, `'\t' = 9`, `'\n' = 10`, `'\v' = 11`, `'\f' = 12`, `'\r' = 13`,
and the terminating NUL is the end of the list. -/

/-- `isspace(c)` for the byte values `strtol` skips. -/
def isSpaceByte (c : Nat) : Bool :=
  c = 32 || c = 9 || c = 10 || c = 11 || c = 12 || c = 13

/-- A decimal digit byte, with its value. -/
def digitVal (c : Nat) : Option Nat :=
  if 48 ≤ c ∧ c ≤ 57 then some (c - 48) else none

/-- The digit-consuming loop of `strtol(_, &end, 10)`: accumulate digits,
stop at the first non-digit, return the value and the rest (where `end`
points). -/
def parseDigits (acc : Nat) : List Nat → Nat × List Nat
  | [] => (acc, [])
  | c :: cs =>
    match digitVal c with
    | some d => parseDigits (acc * 10 + d) cs
    | none => (acc, c :: cs)

/-- `strtol(s, &end, 10)`: skip whitespace, read an optional sign, consume
digits; result value and the suffix `end` points at. (The 64-bit clamping
of out-of-range inputs is irrelevant at the small-integer ranges the claims
quantify over.) -/
def strtol10 (s : List Nat) : Int × List Nat :=
  match s.dropWhile isSpaceByte with
  | 45 :: rest => (-(parseDigits 0 rest).1, (parseDigits 0 rest).2)
  | 43 :: rest => ((parseDigits 0 rest).1, (parseDigits 0 rest).2)
  | other => ((parseDigits 0 other).1, (parseDigits 0 other).2)

/-- `idris_castStrInt(vm, i)`:
`v = strtol(GETSTR(i), &end, 10); if (*end=='\0' || *end=='\n' || *end=='\r') return MKINT(v); else return MKINT(0);`. -/
def idris_castStrInt (s : List Nat) : Int :=
  let r := strtol10 s
  match r.2 with
  | [] => r.1
  | c :: _ => if c = 10 ∨ c = 13 then r.1 else 0

/-- Decimal digit bytes of a natural number, most significant first
(the digits `sprintf("%d", x)` emits for `x ≥ 0`). -/
def natDecDigits (n : Nat) : List Nat :=
  if h : n < 10 then [48 + n]
  else natDecDigits (n / 10) ++ [48 + n % 10]
decreasing_by exact Nat.div_lt_self (by omega) (by omega)

/-- The C cast `(int)x` on an LP64 signed value: wrap into `[-2^31, 2^31)`. -/
def wrap32 (n : Int) : Int := (n + 2147483648) % 4294967296 - 2147483648

/-- `idris_castIntStr(vm, i)`: `sprintf(str, "%d", (int)GETINT(i))` — the
decimal rendering, with a leading `'-'` when negative, of the 32-bit
truncation of the small integer. -/
def idris_castIntStr (n : Int) : List Nat :=
  let x := wrap32 n
  if x < 0 then 45 :: natDecDigits x.natAbs else natDecDigits x.toNat

/-! ### Buffers (claims C5, C8) -/

/-- `sizeof(Buffer)` on LP64: two `size_t` fields (`cap`, `fill`) ahead of
the flexible `store`. -/
def sizeofBuffer : Nat := 16

/-- `sizeof(Closure) + sizeof(Buffer)`, the header `internal_allocate`
adds to its hint. -/
def bufHeader : Nat := sizeofClosure + sizeofBuffer

/-- The round-up loop of `internal_allocate`:
`--size; for (i = 0; i <= sizeof size; ++i) size |= size >> (1 << i); ++size;`
with `sizeof size = 8`, so shifts `2^0 .. 2^8`. (The C shifts past the word
width are benign on the targets the runtime supports and drop out entirely
over `Nat`.) -/
def smear (x : Nat) : Nat :=
  List.foldl (fun a i => a ||| a >>> 2 ^ i) x (List.range 9)

/-- The round-up composite `smear(s - 1) + 1` over unbounded naturals; on
the non-wrapping domain the `size_t` computation inside
`internal_allocate` coincides with it. -/
def p2round (s : Nat) : Nat := smear (s - 1) + 1

/-- `2^64`: the modulus of the `size_t` arithmetic in `internal_allocate`. -/
def sizeTMod : Nat := 18446744073709551616

/-- A BUFFER object: capacity, fill, and the byte store. -/
structure CBuffer where
  cap : Nat
  fill : Nat
  store : Nat → Nat

/-- `internal_allocate(vm, hint)`: every arithmetic step is `size_t`, i.e.
modulo `2^64`: `size = hint + sizeof(Closure) + sizeof(Buffer)` (wrapping),
`--size` (wrapping at 0), the smearing round-up loop, `++size` (wrapping at
`2^64 - 1`), then `cap = size - (sizeof(Closure) + sizeof(Buffer))`
(wrapping below 0). The object itself is zero-filled by `allocate`, hence
the zero store and zero fill. Smearing a value below `2^64` stays below
`2^64` (it only copies bits downward), so no reduction is needed inside
the loop itself. -/
def internal_allocate (hint : Nat) : CBuffer :=
  let size0 := (hint + bufHeader) % sizeTMod
  let size1 := (size0 + sizeTMod - 1) % sizeTMod
  let size2 := (smear size1 + 1) % sizeTMod
  { cap := (size2 + sizeTMod - bufHeader) % sizeTMod
    fill := 0
    store := fun _ => 0 }

/-- `idris_buffer_allocate(vm, hint)`: `internal_allocate` then
`cl->info.buf->fill = 0`. -/
def idris_buffer_allocate (hint : Nat) : CBuffer :=
  { internal_allocate hint with fill := 0 }

/-- `memmove(cl->store, buf->store, bufLen)` into a fresh store. -/
def copyFrom (dst src : Nat → Nat) (len : Nat) : Nat → Nat :=
  fun a => if a < len then src a else dst a

/-- `internal_prepare_append(vm, buf, bufLen, appLen)`: reallocate and copy
when the caller's view is stale (`bufLen != fill`) or capacity is exceeded;
otherwise just bump `fill`. -/
def internal_prepare_append (buf : CBuffer) (bufLen appLen : Nat) : CBuffer :=
  if bufLen ≠ buf.fill ∨ bufLen + appLen > buf.cap then
    let cl := internal_allocate (bufLen + appLen)
    { cl with store := copyFrom cl.store buf.store bufLen, fill := bufLen + appLen }
  else
    { buf with fill := buf.fill + appLen }

/-- Write the byte list `bs` at offsets `off, off+1, ...` (one
`memmove(dest, src, size)` of `internal_memset`). -/
def writeBytesL : (Nat → Nat) → Nat → List Nat → Nat → Nat
  | m, _, [] => m
  | m, off, b :: bs => writeBytesL (writeByte m off b) (off + 1) bs

/-- `internal_memset(dest, src, size, num)`: write `bs` `cnt` times back to
back starting at `off`. -/
def writeRep : (Nat → Nat) → Nat → List Nat → Nat → Nat → Nat
  | m, _, _, 0 => m
  | m, off, bs, Nat.succ c => writeRep (writeBytesL m off bs) (off + bs.length) bs c

/-- `internal_append_bits(vm, buf, bufLen, cnt, val, val_len)` with the
value bytes given as the list `bs`. -/
def internal_append_bits (buf : CBuffer) (bufLen cnt : Nat) (bs : List Nat) : CBuffer :=
  let cl := internal_prepare_append buf bufLen (cnt * bs.length)
  { cl with store := writeRep cl.store bufLen bs cnt }

/-- `memset(store + off, v, len)` of `idris_appendB8Native`. -/
def memsetRange (m : Nat → Nat) (off v len : Nat) : Nat → Nat :=
  fun a => if off ≤ a ∧ a < off + len then v % 256 else m a

/-- `idris_appendB8Native(vm, buf, len, cnt, val)`. -/
def idris_appendB8Native (buf : CBuffer) (bufLen cnt v : Nat) : CBuffer :=
  let cl := internal_prepare_append buf bufLen cnt
  { cl with store := memsetRange cl.store bufLen v cnt }

/-- `idris_peekB8Native(vm, buf, off)`: the byte at `off`. -/
def idris_peekB8Native (buf : CBuffer) (off : Nat) : Nat :=
  buf.store off

/-- Modelled from the spec: the interface section lists
`appendB{8,16,32,64}{Native,LE,BE}` and the matching peeks, but the 8-bit
LE/BE entry points are not in `src/` (a single byte has no byte order);
faithful to the spec's words they write and read the one byte exactly as
the Native form does. -/
def idris_appendB8LE (buf : CBuffer) (bufLen cnt v : Nat) : CBuffer :=
  internal_append_bits buf bufLen cnt [v % 256]

/-- Modelled from the spec: see `idris_appendB8LE`. -/
def idris_appendB8BE (buf : CBuffer) (bufLen cnt v : Nat) : CBuffer :=
  internal_append_bits buf bufLen cnt [v % 256]

/-- Modelled from the spec: see `idris_appendB8LE`. -/
def idris_peekB8LE (buf : CBuffer) (off : Nat) : Nat := buf.store off

/-- Modelled from the spec: see `idris_appendB8LE`. -/
def idris_peekB8BE (buf : CBuffer) (off : Nat) : Nat := buf.store off

/-- `idris_appendB16LE`: the local array is
`unsigned char leVal[sizeof val]` — `sizeof val` is `sizeof(VAL) = 8`, so
the two initialized bytes are followed by six zero bytes, all appended. -/
def idris_appendB16LE (buf : CBuffer) (bufLen cnt v : Nat) : CBuffer :=
  internal_append_bits buf bufLen cnt
    [v % 256, v / 256 % 256, 0, 0, 0, 0, 0, 0]

/-- `idris_appendB16BE`: high byte first, then six zero padding bytes
(`sizeof val = 8`, see `idris_appendB16LE`). -/
def idris_appendB16BE (buf : CBuffer) (bufLen cnt v : Nat) : CBuffer :=
  internal_append_bits buf bufLen cnt
    [v / 256 % 256, v % 256, 0, 0, 0, 0, 0, 0]

/-- `idris_appendB16Native`: copies the two machine bytes of the `uint16_t`
(`sizeof val->info.bits16 = 2`); `hostLE` is the machine byte order. -/
def idris_appendB16Native (hostLE : Bool) (buf : CBuffer) (bufLen cnt v : Nat) : CBuffer :=
  internal_append_bits buf bufLen cnt
    (if hostLE then [v % 256, v / 256 % 256] else [v / 256 % 256, v % 256])

/-- `idris_appendB32LE`: four value bytes, low first, then four zero
padding bytes (`sizeof val = 8`). -/
def idris_appendB32LE (buf : CBuffer) (bufLen cnt v : Nat) : CBuffer :=
  internal_append_bits buf bufLen cnt
    [v % 256, v / 256 % 256, v / 65536 % 256, v / 16777216 % 256, 0, 0, 0, 0]

/-- `idris_appendB32BE`: four value bytes, high first, then four zero
padding bytes. -/
def idris_appendB32BE (buf : CBuffer) (bufLen cnt v : Nat) : CBuffer :=
  internal_append_bits buf bufLen cnt
    [v / 16777216 % 256, v / 65536 % 256, v / 256 % 256, v % 256, 0, 0, 0, 0]

/-- `idris_appendB32Native`: the four machine bytes of the `uint32_t`. -/
def idris_appendB32Native (hostLE : Bool) (buf : CBuffer) (bufLen cnt v : Nat) : CBuffer :=
  internal_append_bits buf bufLen cnt
    (if hostLE then
      [v % 256, v / 256 % 256, v / 65536 % 256, v / 16777216 % 256]
    else
      [v / 16777216 % 256, v / 65536 % 256, v / 256 % 256, v % 256])

/-- `idris_appendB64LE`: all eight value bytes, low first. -/
def idris_appendB64LE (buf : CBuffer) (bufLen cnt v : Nat) : CBuffer :=
  internal_append_bits buf bufLen cnt
    [v % 256, v / 256 % 256, v / 65536 % 256, v / 16777216 % 256,
     v / 4294967296 % 256, v / 1099511627776 % 256,
     v / 281474976710656 % 256, v / 72057594037927936 % 256]

/-- `idris_appendB64BE`: all eight value bytes, high first. -/
def idris_appendB64BE (buf : CBuffer) (bufLen cnt v : Nat) : CBuffer :=
  internal_append_bits buf bufLen cnt
    [v / 72057594037927936 % 256, v / 281474976710656 % 256,
     v / 1099511627776 % 256, v / 4294967296 % 256,
     v / 16777216 % 256, v / 65536 % 256, v / 256 % 256, v % 256]

/-- `idris_appendB64Native`: the eight machine bytes of the `uint64_t`. -/
def idris_appendB64Native (hostLE : Bool) (buf : CBuffer) (bufLen cnt v : Nat) : CBuffer :=
  internal_append_bits buf bufLen cnt
    (if hostLE then
      [v % 256, v / 256 % 256, v / 65536 % 256, v / 16777216 % 256,
       v / 4294967296 % 256, v / 1099511627776 % 256,
       v / 281474976710656 % 256, v / 72057594037927936 % 256]
    else
      [v / 72057594037927936 % 256, v / 281474976710656 % 256,
       v / 1099511627776 % 256, v / 4294967296 % 256,
       v / 16777216 % 256, v / 65536 % 256, v / 256 % 256, v % 256])

/-- `idris_peekB16LE(vm, buf, off)`. -/
def idris_peekB16LE (buf : CBuffer) (off : Nat) : Nat :=
  buf.store off + buf.store (off + 1) * 256

/-- `idris_peekB16BE(vm, buf, off)`. -/
def idris_peekB16BE (buf : CBuffer) (off : Nat) : Nat :=
  buf.store (off + 1) + buf.store off * 256

/-- `idris_peekB16Native(vm, buf, off)`: reads the `uint16_t` at `off` in
machine byte order. -/
def idris_peekB16Native (hostLE : Bool) (buf : CBuffer) (off : Nat) : Nat :=
  if hostLE then buf.store off + buf.store (off + 1) * 256
  else buf.store (off + 1) + buf.store off * 256

/-- `idris_peekB32LE(vm, buf, off)`. -/
def idris_peekB32LE (buf : CBuffer) (off : Nat) : Nat :=
  buf.store off + buf.store (off + 1) * 256 + buf.store (off + 2) * 65536 +
    buf.store (off + 3) * 16777216

/-- `idris_peekB32BE(vm, buf, off)`. -/
def idris_peekB32BE (buf : CBuffer) (off : Nat) : Nat :=
  buf.store (off + 3) + buf.store (off + 2) * 256 + buf.store (off + 1) * 65536 +
    buf.store off * 16777216

/-- `idris_peekB32Native(vm, buf, off)`. -/
def idris_peekB32Native (hostLE : Bool) (buf : CBuffer) (off : Nat) : Nat :=
  if hostLE then
    buf.store off + buf.store (off + 1) * 256 + buf.store (off + 2) * 65536 +
      buf.store (off + 3) * 16777216
  else
    buf.store (off + 3) + buf.store (off + 2) * 256 + buf.store (off + 1) * 65536 +
      buf.store off * 16777216

/-- `idris_peekB64LE(vm, buf, off)`. -/
def idris_peekB64LE (buf : CBuffer) (off : Nat) : Nat :=
  buf.store off + buf.store (off + 1) * 256 + buf.store (off + 2) * 65536 +
    buf.store (off + 3) * 16777216 + buf.store (off + 4) * 4294967296 +
    buf.store (off + 5) * 1099511627776 + buf.store (off + 6) * 281474976710656 +
    buf.store (off + 7) * 72057594037927936

/-- `idris_peekB64BE(vm, buf, off)`. -/
def idris_peekB64BE (buf : CBuffer) (off : Nat) : Nat :=
  buf.store (off + 7) + buf.store (off + 6) * 256 + buf.store (off + 5) * 65536 +
    buf.store (off + 4) * 16777216 + buf.store (off + 3) * 4294967296 +
    buf.store (off + 2) * 1099511627776 + buf.store (off + 1) * 281474976710656 +
    buf.store off * 72057594037927936

/-- `idris_peekB64Native(vm, buf, off)`. -/
def idris_peekB64Native (hostLE : Bool) (buf : CBuffer) (off : Nat) : Nat :=
  if hostLE then idris_peekB64LE buf off else idris_peekB64BE buf off

/-- Byte swap of an 8-bit value (identity on representable values). -/
def byteswap8 (v : Nat) : Nat := v % 256

/-- Byte swap of a 16-bit value. -/
def byteswap16 (v : Nat) : Nat := v % 256 * 256 + v / 256 % 256

/-- Byte swap of a 32-bit value. -/
def byteswap32 (v : Nat) : Nat :=
  v % 256 * 16777216 + v / 256 % 256 * 65536 + v / 65536 % 256 * 256 +
    v / 16777216 % 256

/-- Byte swap of a 64-bit value. -/
def byteswap64 (v : Nat) : Nat :=
  v % 256 * 72057594037927936 + v / 256 % 256 * 281474976710656 +
    v / 65536 % 256 * 1099511627776 + v / 16777216 % 256 * 4294967296 +
    v / 4294967296 % 256 * 16777216 + v / 1099511627776 % 256 * 65536 +
    v / 281474976710656 % 256 * 256 + v / 72057594037927936 % 256

/-- `c` is the least power of two that is at least `s`. -/
def isLeastPow2Ge (s c : Nat) : Prop :=
  (∃ k, c = 2 ^ k) ∧ s ≤ c ∧ ∀ m, s ≤ 2 ^ m → c ≤ 2 ^ m

/-! ### Mailbox (claims C3, C9) -/

/-- One mailbox entry: `(sender, msg)`. Senders are VM identities, message
payloads are the (deep-copied) values, abstracted to their identity. -/
structure MailMsg where
  sender : Nat
  payload : Nat
deriving DecidableEq

/-- `vm->inbox_end - vm->inbox`: 1024 slots. -/
def mbCapacity : Nat := 1024

/-- `idris_sendMessage(sender, dest, msg)` at the mailbox level: if the
write pointer has reached `inbox_end` print "Inbox full" and `exit(-1)`
(here: `none`); otherwise store `(sender, msg)` at the write pointer and
advance it. The inbox is the list of populated slots. -/
def idris_sendMessage (sender payload : Nat) (inbox : List MailMsg) :
    Option (List MailMsg) :=
  if mbCapacity ≤ inbox.length then none
  else some (inbox ++ [{ sender := sender, payload := payload }])

/-- The filter of `idris_getMessageFrom`:
`sender == NULL || msg->sender == sender`. -/
def matchSender (flt : Option Nat) (e : MailMsg) : Bool :=
  match flt with
  | none => true
  | some s => e.sender == s

/-- The scan of `idris_getMessageFrom` combined with the removal loop of
`idris_recvMessageFrom`: find the first entry satisfying `p`; removal
shifts every later entry down one slot and retreats the write pointer, so
the remaining inbox is the original with that one entry gone, order kept. -/
def recvScan (p : MailMsg → Bool) : List MailMsg → Option (MailMsg × List MailMsg)
  | [] => none
  | e :: rest =>
    if p e then some (e, rest)
    else
      match recvScan p rest with
      | some r => some (r.1, e :: r.2)
      | none => none

/-- Operations a run of the mailbox sees, in linearization order: a send
(by `sender`, of `payload`) or a completed receive with the given sender
filter. -/
inductive MOp where
  | send : Nat → Nat → MOp
  | recv : Option Nat → MOp

/-- The payloads sender `s` sends, in send order. -/
def sentFrom (s : Nat) : List MOp → List Nat
  | [] => []
  | MOp.send s2 m :: rest =>
    if s2 = s then m :: sentFrom s rest else sentFrom s rest
  | MOp.recv _ :: rest => sentFrom s rest

/-- Run a linearized operation sequence against the inbox. Returns the
final inbox and every message a receive returned, in completion order. A
send onto a full inbox is fatal ("Inbox full"); a receive with no matching
message blocks in the timed-wait loop — in either case nothing further
completes. -/
def runMail : List MOp → List MailMsg → List MailMsg × List MailMsg
  | [], inbox => (inbox, [])
  | MOp.send s2 m :: rest, inbox =>
    match idris_sendMessage s2 m inbox with
    | some inbox2 => runMail rest inbox2
    | none => (inbox, [])
  | MOp.recv flt :: rest, inbox =>
    match recvScan (matchSender flt) inbox with
    | some r =>
      let t := runMail rest r.2
      (t.1, r.1 :: t.2)
    | none => (inbox, [])

/-- What `idris_recvMessageFrom` does once its wait loop has exited,
`msg` being the pointer the loop left behind:
`if (msg != NULL) { <remove and return> } else { fprintf(stderr, "No messages waiting"); exit(-1); }`. -/
inductive RecvOutcome where
  | returned : MailMsg → RecvOutcome
  | fatal : String → RecvOutcome
deriving DecidableEq

/-- The post-wait conditional of `idris_recvMessageFrom`, verbatim. -/
def recvPostWait (msg : Option (MailMsg × List MailMsg)) : RecvOutcome :=
  match msg with
  | some r => RecvOutcome.returned r.1
  | none => RecvOutcome.fatal "No messages waiting"

/-- The wait loop of `idris_recvMessageFrom`: `scans` is the inbox as seen
by each successive `idris_getMessageFrom` call (the first before any wait,
the rest after each timed-wait wakeup). The loop exits only when a scan
finds a message; `none` means every observed scan came up empty and the
call is still blocked in the loop. -/
def recvWaitLoop (p : MailMsg → Bool) : List (List MailMsg) →
    Option (Option (MailMsg × List MailMsg))
  | [] => none
  | inbox :: rest =>
    match recvScan p inbox with
    | some r => some (some r)
    | none => recvWaitLoop p rest

/-- `idris_recvMessageFrom`, as a function of the scan observations: the
wait loop followed, if it exits, by the post-wait conditional. `none`
means the call has not returned (still waiting). -/
def idris_recvMessageFrom (p : MailMsg → Bool) (scans : List (List MailMsg)) :
    Option RecvOutcome :=
  (recvWaitLoop p scans).map recvPostWait

/-! ### `idris_strRev` over the heap model (claim C10) -/

/-- The copy loop of `idris_strRev`:
`int y = 0; int x = strlen(xstr); while(x>0) { cl->info.str[y++] = xstr[--x]; }`
writing into heap memory at string base `base`. -/
def revLoop (xs : List Nat) (base : Nat) : (Nat → Nat) → Nat → Nat → Nat → Nat
  | m, 0, _ => m
  | m, Nat.succ x, y => revLoop xs base (writeByte m (base + y) (xs.getD x 0)) x (y + 1)

/-- `idris_strRev(vm, str)` over the heap model, `xs` being the bytes of
`GETSTR(str)` (NUL excluded): allocate `sizeof(Closure) + strlen + 1`
bytes, write `'\0'` at string index `strlen + 1`, then run the reversing
copy loop. Returns the payload pointer (the string lives at offset
`sizeof(Closure)` into it), the heap, and the collection flag. -/
def idris_strRev (xs : List Nat) (h : Heap) : AllocRes :=
  let r := allocate (sizeofClosure + xs.length + 1) h
  let base := r.ptr + sizeofClosure
  let m1 := writeByte r.heap.mem (base + xs.length + 1) 0
  let m2 := revLoop xs base m1 xs.length 0
  { r with heap := { r.heap with mem := m2 } }

/-! ### Packaged claim conclusions -/

/-- What holds of a `requireAlloc`/`doneAlloc` scope whose allocations keep
within the reserved chunk budget: `idris_requireAlloc` neither collects nor
changes the heap, the scope's allocations never collect, and the bump
pointer advances exactly by the scope's own chunks. -/
def C1Post (size : Nat) (sizes : List Nat) (h : Heap) : Prop :=
  (idris_requireAlloc size h).1 = h ∧
  (idris_requireAlloc size h).2 = false ∧
  (allocSeq sizes h).2.2 = false ∧
  (allocSeq sizes h).2.1.next = h.next + (sizes.map chunkOf).sum

/-- What a collection-free allocation sequence on a fresh heap guarantees:
no collection, 8-byte aligned pointers, pairwise non-overlapping payloads,
zero-initialized payloads, and a word-sized chunk-length prefix. -/
def C2Post (heapSize : Nat) (sizes : List Nat) : Prop :=
  (allocSeq sizes (freshHeap heapSize)).2.2 = false ∧
  (∀ i, i < sizes.length →
    (allocSeq sizes (freshHeap heapSize)).1.getD i 0 % 8 = 0) ∧
  (∀ i j, i < j → j < sizes.length →
    (allocSeq sizes (freshHeap heapSize)).1.getD i 0 + round8 (sizes.getD i 0) ≤
      (allocSeq sizes (freshHeap heapSize)).1.getD j 0) ∧
  (∀ i, i < sizes.length → ∀ k, k < round8 (sizes.getD i 0) →
    (allocSeq sizes (freshHeap heapSize)).2.1.mem
      ((allocSeq sizes (freshHeap heapSize)).1.getD i 0 + k) = 0) ∧
  (∀ i, i < sizes.length →
    decodeWord (allocSeq sizes (freshHeap heapSize)).2.1.mem
      ((allocSeq sizes (freshHeap heapSize)).1.getD i 0 - wordBytes) =
      chunkOf (sizes.getD i 0))

/-- The round-trip, cross-variant and byte-placement facts of claim C5, for
one representable value of each width, appended to a fresh empty buffer. -/
def C5Post (hostLE : Bool) (v8 v16 v32 v64 : Nat) : Prop :=
  idris_peekB8Native (idris_appendB8Native (idris_buffer_allocate 0) 0 1 v8) 0 = v8 ∧
  idris_peekB8LE (idris_appendB8LE (idris_buffer_allocate 0) 0 1 v8) 0 = v8 ∧
  idris_peekB8BE (idris_appendB8BE (idris_buffer_allocate 0) 0 1 v8) 0 = v8 ∧
  idris_peekB8BE (idris_appendB8LE (idris_buffer_allocate 0) 0 1 v8) 0 = byteswap8 v8 ∧
  idris_peekB16LE (idris_appendB16LE (idris_buffer_allocate 0) 0 1 v16) 0 = v16 ∧
  idris_peekB16BE (idris_appendB16BE (idris_buffer_allocate 0) 0 1 v16) 0 = v16 ∧
  idris_peekB16Native hostLE
    (idris_appendB16Native hostLE (idris_buffer_allocate 0) 0 1 v16) 0 = v16 ∧
  idris_peekB16BE (idris_appendB16LE (idris_buffer_allocate 0) 0 1 v16) 0 = byteswap16 v16 ∧
  (idris_appendB16LE (idris_buffer_allocate 0) 0 1 v16).store 0 = v16 % 256 ∧
  (idris_appendB16BE (idris_buffer_allocate 0) 0 1 v16).store 0 = v16 / 256 % 256 ∧
  idris_peekB32LE (idris_appendB32LE (idris_buffer_allocate 0) 0 1 v32) 0 = v32 ∧
  idris_peekB32BE (idris_appendB32BE (idris_buffer_allocate 0) 0 1 v32) 0 = v32 ∧
  idris_peekB32Native hostLE
    (idris_appendB32Native hostLE (idris_buffer_allocate 0) 0 1 v32) 0 = v32 ∧
  idris_peekB32BE (idris_appendB32LE (idris_buffer_allocate 0) 0 1 v32) 0 = byteswap32 v32 ∧
  (idris_appendB32LE (idris_buffer_allocate 0) 0 1 v32).store 0 = v32 % 256 ∧
  (idris_appendB32BE (idris_buffer_allocate 0) 0 1 v32).store 0 = v32 / 16777216 % 256 ∧
  idris_peekB64LE (idris_appendB64LE (idris_buffer_allocate 0) 0 1 v64) 0 = v64 ∧
  idris_peekB64BE (idris_appendB64BE (idris_buffer_allocate 0) 0 1 v64) 0 = v64 ∧
  idris_peekB64Native hostLE
    (idris_appendB64Native hostLE (idris_buffer_allocate 0) 0 1 v64) 0 = v64 ∧
  idris_peekB64BE (idris_appendB64LE (idris_buffer_allocate 0) 0 1 v64) 0 = byteswap64 v64 ∧
  (idris_appendB64LE (idris_buffer_allocate 0) 0 1 v64).store 0 = v64 % 256 ∧
  (idris_appendB64BE (idris_buffer_allocate 0) 0 1 v64).store 0 =
    v64 / 72057594037927936 % 256

/-- What `idris_strRev` produces: the reversed bytes, a NUL terminator at
index `len` that is exactly the byte `allocate` zero-filled (untouched by
`strRev`'s own stores), and the explicitly written NUL at index `len + 1`. -/
def C10Post (xs : List Nat) (h : Heap) : Prop :=
  (idris_strRev xs h).gcRan = false ∧
  (∀ i, i < xs.length →
    (idris_strRev xs h).heap.mem ((idris_strRev xs h).ptr + sizeofClosure + i) =
      xs.getD (xs.length - 1 - i) 0) ∧
  (idris_strRev xs h).heap.mem
    ((idris_strRev xs h).ptr + sizeofClosure + xs.length) = 0 ∧
  (idris_strRev xs h).heap.mem
    ((idris_strRev xs h).ptr + sizeofClosure + xs.length) =
    (allocate (sizeofClosure + xs.length + 1) h).heap.mem
      ((idris_strRev xs h).ptr + sizeofClosure + xs.length) ∧
  (idris_strRev xs h).heap.mem
    ((idris_strRev xs h).ptr + sizeofClosure + xs.length + 1) = 0

/-! ## Theorems -/

/-- Claim C4: the source of `MKB32x4const` stamps the `BITS64X2` tag on the
object it builds (a copy-paste from `MKB64x2const`), for every lane input,
and `MKB32x4` inherits this; `BITS64X2` is not the 32-bit-lane tag
`BITS32X4` the specification's object table assigns to a payload of four
32-bit lanes. -/
theorem C4_MKB32x4_wrong_tag :
    (MKB32x4const 1 2 3 4).ty = ClosureType.BITS64X2 ∧
    (MKB32x4 1 2 3 4).ty = ClosureType.BITS64X2 ∧
    (∀ v0 v1 v2 v3 : Nat, (MKB32x4const v0 v1 v2 v3).ty = ClosureType.BITS64X2) ∧
    ClosureType.BITS64X2 ≠ ClosureType.BITS32X4 :=
  ⟨rfl, rfl, fun _ _ _ _ => rfl, by decide⟩

theorem findRootAcc_eq (v : SVal) : ∀ acc, findRootAcc v acc = (rootOf v, acc + totalOffset v) := by
  induction v with
  | str s => intro acc; simp [findRootAcc, rootOf, totalOffset]
  | strOffset root off ih =>
    intro acc
    simp only [findRootAcc, rootOf, totalOffset, ih]
    congr 1
    omega

theorem rootOf_isStr (v : SVal) : ∃ s, rootOf v = SVal.str s := by
  induction v with
  | str s => exact ⟨s, rfl⟩
  | strOffset root off ih => exact ih

/-- Claim C7: `idris_strTail` returns either a fresh STRING copy (when the
heap lacks room) or a STROFFSET whose root is the underlying STRING with
the walked offsets accumulated — never a STROFFSET over a STROFFSET — so
every value it creates has chain depth at most 1; and `MKSTROFFc` copies
its argument's fields verbatim, preserving the depth of what it copies. -/
theorem C7_strTail_depth_le_one (sp : Bool) (v : SVal) :
    chainDepth (idris_strTail sp v) ≤ 1 ∧
    (sp = true →
      idris_strTail sp v = SVal.strOffset (rootOf v) (totalOffset v + 1) ∧
      ∃ s, rootOf v = SVal.str s) ∧
    (sp = false → idris_strTail sp v = SVal.str ((getStr v).drop 1)) ∧
    ∀ r o, MKSTROFFc r o = SVal.strOffset r o := by
  refine ⟨?_, ?_, ?_, fun r o => rfl⟩
  · cases sp with
    | false => simp [idris_strTail, chainDepth]
    | true =>
      simp only [idris_strTail, if_pos, findRootAcc_eq]
      obtain ⟨s, hs⟩ := rootOf_isStr v
      simp [hs, chainDepth]
  · intro hsp
    subst hsp
    simp only [idris_strTail, if_pos, findRootAcc_eq]
    exact ⟨by simp, rootOf_isStr v⟩
  · intro hsp
    subst hsp
    simp [idris_strTail]

/-- Witness for C7 at a depth-2 STROFFSET chain: the tail is a depth-1
STROFFSET over the root STRING with summed offset. -/
theorem C7_strTail_witness :
    idris_strTail true (SVal.strOffset (SVal.strOffset (SVal.str [104, 105, 106, 107]) 1) 2)
      = SVal.strOffset (SVal.str [104, 105, 106, 107]) 4 ∧
    ∃ s, rootOf (SVal.strOffset (SVal.strOffset (SVal.str [104, 105, 106, 107]) 1) 2)
      = SVal.str s := by
  have h := (C7_strTail_depth_le_one true
    (SVal.strOffset (SVal.strOffset (SVal.str [104, 105, 106, 107]) 1) 2)).2.1 rfl
  exact ⟨by rw [h.1]; rfl, h.2⟩

/-- Claim C9 (counterexample): a wake of the receive loop that observes an
empty inbox (`idris_getMessageFrom` returns NULL) does not exit fatally:
with scan observations `[], [], [msg]` the second observation is a NULL
seen after a wake, yet the call returns the message normally; and with
only NULL observations the call is still blocked in the wait loop, not
exited with "No messages waiting". -/
theorem C9_counterexample :
    recvScan (fun _ => true) ([] : List MailMsg) = none ∧
    idris_recvMessageFrom (fun _ => true)
        [[], [], [{ sender := 0, payload := 5 }]]
      = some (RecvOutcome.returned { sender := 0, payload := 5 }) ∧
    idris_recvMessageFrom (fun _ => true)
        [[], [], [{ sender := 0, payload := 5 }]]
      ≠ some (RecvOutcome.fatal "No messages waiting") ∧
    idris_recvMessageFrom (fun _ => true) [[], []] = none := by
  refine ⟨rfl, rfl, ?_, rfl⟩
  intro h
  simp [idris_recvMessageFrom, recvWaitLoop, recvScan, recvPostWait] at h

/-- Claim C9 (amended): `idris_recvMessageFrom` can never exit with the
"No messages waiting" diagnostic: its wait loop only exits once a scan has
found a matching message, so the post-wait NULL check always takes the
non-fatal branch; a NULL observed after a wake simply re-enters the timed
wait. -/
theorem C9_recv_never_fatal (p : MailMsg → Bool) (scans : List (List MailMsg)) :
    (∀ d : String, idris_recvMessageFrom p scans ≠ some (RecvOutcome.fatal d)) ∧
    (idris_recvMessageFrom p scans = none ∨
      ∃ r, recvWaitLoop p scans = some (some r) ∧
        idris_recvMessageFrom p scans = some (RecvOutcome.returned r.1)) := by
  induction scans with
  | nil => exact ⟨fun d h => by simp [idris_recvMessageFrom, recvWaitLoop] at h, Or.inl rfl⟩
  | cons inbox rest ih =>
    cases hscan : recvScan p inbox with
    | some r =>
      constructor
      · intro d h
        simp [idris_recvMessageFrom, recvWaitLoop, hscan, recvPostWait] at h
      · exact Or.inr ⟨r, by simp [recvWaitLoop, hscan],
          by simp [idris_recvMessageFrom, recvWaitLoop, hscan, recvPostWait]⟩
    | none =>
      have hstep : idris_recvMessageFrom p (inbox :: rest) = idris_recvMessageFrom p rest := by
        simp [idris_recvMessageFrom, recvWaitLoop, hscan]
      have hloop : recvWaitLoop p (inbox :: rest) = recvWaitLoop p rest := by
        simp [recvWaitLoop, hscan]
      rw [hstep, hloop]
      exact ih

/-- Witness for C9 (amended) at one concrete scan trace. -/
theorem C9_recv_never_fatal_witness :
    idris_recvMessageFrom (fun _ => true) [[{ sender := 1, payload := 7 }]]
      ≠ some (RecvOutcome.fatal "No messages waiting") :=
  (C9_recv_never_fatal (fun _ => true) [[{ sender := 1, payload := 7 }]]).1
    "No messages waiting"

theorem natDecDigits_digits (n : Nat) : ∀ c ∈ natDecDigits n, 48 ≤ c ∧ c ≤ 57 := by
  induction n using natDecDigits.induct with
  | case1 n h =>
    intro c hc
    rw [natDecDigits, dif_pos h] at hc
    simp at hc
    omega
  | case2 n h ih =>
    intro c hc
    rw [natDecDigits, dif_neg h] at hc
    rcases List.mem_append.1 hc with h1 | h1
    · exact ih c h1
    · simp at h1
      have : n % 10 < 10 := Nat.mod_lt _ (by omega)
      omega

theorem natDecDigits_ne_nil (n : Nat) : natDecDigits n ≠ [] := by
  rw [natDecDigits]
  split
  · simp
  · simp

theorem parseDigits_all_digits :
    ∀ (ds : List Nat) (acc : Nat) (tail : List Nat),
      (∀ c ∈ ds, 48 ≤ c ∧ c ≤ 57) →
      parseDigits acc (ds ++ tail) =
        parseDigits (ds.foldl (fun a c => a * 10 + (c - 48)) acc) tail := by
  intro ds
  induction ds with
  | nil => intro acc tail _; simp
  | cons c cs ih =>
    intro acc tail hd
    have hc := hd c (List.mem_cons_self c cs)
    have hdig : digitVal c = some (c - 48) := by
      unfold digitVal
      rw [if_pos ⟨hc.1, hc.2⟩]
    simp only [List.cons_append, parseDigits, hdig, List.foldl_cons]
    exact ih _ _ (fun x hx => hd x (List.mem_cons_of_mem c hx))

theorem natDecDigits_foldl (n : Nat) :
    ∀ acc, (natDecDigits n).foldl (fun a c => a * 10 + (c - 48)) acc =
      acc * 10 ^ (natDecDigits n).length + n := by
  induction n using natDecDigits.induct with
  | case1 n h =>
    intro acc
    rw [natDecDigits, dif_pos h]
    simp
  | case2 n h ih =>
    intro acc
    rw [natDecDigits, dif_neg h]
    rw [List.foldl_append, ih]
    simp [List.length_append, pow_succ]
    have := Nat.div_add_mod n 10
    have h10 : n % 10 < 10 := Nat.mod_lt _ (by omega)
    ring_nf
    omega

theorem parseDigits_natDecDigits (n : Nat) :
    parseDigits 0 (natDecDigits n) = (n, []) := by
  have h1 := parseDigits_all_digits (natDecDigits n) 0 [] (natDecDigits_digits n)
  rw [List.append_nil] at h1
  rw [h1, natDecDigits_foldl]
  simp [parseDigits]

theorem wrap32_small (n : Int) (h1 : -1073741824 ≤ n) (h2 : n ≤ 1073741824) :
    wrap32 n = n := by
  unfold wrap32
  omega

theorem strtol10_natDecDigits (m : Nat) : strtol10 (natDecDigits m) = ((m : Int), []) := by
  unfold strtol10
  obtain ⟨c, cs, hcons⟩ : ∃ c cs, natDecDigits m = c :: cs := by
    cases h : natDecDigits m with
    | nil => exact absurd h (natDecDigits_ne_nil m)
    | cons c cs => exact ⟨c, cs, rfl⟩
  have hc : 48 ≤ c ∧ c ≤ 57 := natDecDigits_digits m c (by rw [hcons]; simp)
  have hdrop : (natDecDigits m).dropWhile isSpaceByte = natDecDigits m := by
    rw [hcons, List.dropWhile_cons]
    have hns : isSpaceByte c = false := by simp [isSpaceByte]; omega
    simp [hns]
  rw [hdrop, hcons]
  have hparse : parseDigits 0 (c :: cs) = (m, []) := by
    rw [← hcons]; exact parseDigits_natDecDigits m
  split
  · next rest heq =>
    injection heq with hch _
    omega
  · next rest heq =>
    injection heq with hch _
    omega
  · next =>
    rw [hparse]

theorem strtol10_neg_natDecDigits (m : Nat) :
    strtol10 (45 :: natDecDigits m) = (-(m : Int), []) := by
  have h : strtol10 (45 :: natDecDigits m)
      = (-((parseDigits 0 (natDecDigits m)).1 : Int),
         (parseDigits 0 (natDecDigits m)).2) := rfl
  rw [h, parseDigits_natDecDigits]

theorem castStrInt_castIntStr (n : Int) (h1 : -1073741824 ≤ n) (h2 : n ≤ 1073741824) :
    idris_castStrInt (idris_castIntStr n) = n := by
  unfold idris_castIntStr
  rw [wrap32_small n h1 h2]
  by_cases hn : n < 0
  · rw [if_pos hn]
    unfold idris_castStrInt
    rw [strtol10_neg_natDecDigits]
    show -((n.natAbs : Nat) : Int) = n
    omega
  · rw [if_neg hn]
    unfold idris_castStrInt
    rw [strtol10_natDecDigits]
    show ((n.toNat : Nat) : Int) = n
    omega

/-- Claim C6: `castStrInt ∘ castIntStr` is the identity on every
small-integer-representable value (the small-integer range being at least
`±2^30`), `castStrInt("123abc") = 0`, and `castStrInt("42\n") = 42` — a
parse result is kept exactly when the character `strtol` stops at is NUL,
newline or carriage return, and discarded (as 0) otherwise. -/
theorem C6_castIntStr_roundTrip (n : Int)
    (h1 : -1073741824 ≤ n) (h2 : n ≤ 1073741824) :
    idris_castStrInt (idris_castIntStr n) = n ∧
    idris_castStrInt [49, 50, 51, 97, 98, 99] = 0 ∧
    idris_castStrInt [52, 50, 10] = 42 :=
  ⟨castStrInt_castIntStr n h1 h2, by decide, by decide⟩

theorem recvScan_filter_self (p : MailMsg → Bool) :
    ∀ (l : List MailMsg) (r : MailMsg × List MailMsg),
      recvScan p l = some r → p r.1 = true ∧ l.filter p = r.1 :: r.2.filter p := by
  intro l
  induction l with
  | nil => intro r h; simp [recvScan] at h
  | cons e rest ih =>
    intro r h
    by_cases hp : p e
    · simp only [recvScan, if_pos hp] at h
      cases h
      simp [List.filter_cons, hp]
    · simp only [recvScan, if_neg hp] at h
      cases hrec : recvScan p rest with
      | none => rw [hrec] at h; simp at h
      | some r2 =>
        rw [hrec] at h
        simp at h
        obtain ⟨hp2, hfil⟩ := ih r2 hrec
        subst h
        constructor
        · exact hp2
        · simp only [List.filter_cons]
          rw [if_neg (by simp [hp]), if_neg (by simp [hp])] at *
          exact hfil

theorem recvScan_filter_other (p q : MailMsg → Bool) :
    ∀ (l : List MailMsg) (r : MailMsg × List MailMsg),
      recvScan p l = some r → q r.1 = false → l.filter q = r.2.filter q := by
  intro l
  induction l with
  | nil => intro r h; simp [recvScan] at h
  | cons e rest ih =>
    intro r h hq
    by_cases hp : p e
    · simp only [recvScan, if_pos hp] at h
      cases h
      simp [List.filter_cons, hq]
    · simp only [recvScan, if_neg hp] at h
      cases hrec : recvScan p rest with
      | none => rw [hrec] at h; simp at h
      | some r2 =>
        rw [hrec] at h
        simp at h
        subst h
        have := ih r2 hrec hq
        simp only [List.filter_cons]
        cases hqe : q e <;> simp [hqe, this]

theorem recvScan_any (l : List MailMsg) (r : MailMsg × List MailMsg)
    (h : recvScan (fun _ => true) l = some r) : l = r.1 :: r.2 := by
  cases l with
  | nil => simp [recvScan] at h
  | cons e rest =>
    simp only [recvScan, if_pos] at h
    cases h
    rfl

theorem runMail_fifo_invariant (s : Nat) :
    ∀ (ops : List MOp) (inbox : List MailMsg), ∃ t,
      (inbox.filter (matchSender (some s))).map MailMsg.payload ++ sentFrom s ops =
        ((runMail ops inbox).2.filter (matchSender (some s))).map MailMsg.payload ++ t := by
  intro ops
  induction ops with
  | nil =>
    intro inbox
    exact ⟨(inbox.filter (matchSender (some s))).map MailMsg.payload,
      by simp [runMail, sentFrom]⟩
  | cons op rest ih =>
    intro inbox
    cases op with
    | send s2 m =>
      cases hsend : idris_sendMessage s2 m inbox with
      | none =>
        refine ⟨(inbox.filter (matchSender (some s))).map MailMsg.payload ++
          sentFrom s (MOp.send s2 m :: rest), ?_⟩
        simp [runMail, hsend]
      | some inbox2 =>
        have hinbox2 : inbox2 = inbox ++ [{ sender := s2, payload := m }] := by
          unfold idris_sendMessage at hsend
          split at hsend
          · simp at hsend
          · simp at hsend; exact hsend.symm
        obtain ⟨t, ht⟩ := ih inbox2
        refine ⟨t, ?_⟩
        have hrun : runMail (MOp.send s2 m :: rest) inbox = runMail rest inbox2 := by
          simp [runMail, hsend]
        rw [hrun, ← ht, hinbox2]
        rw [List.filter_append, List.map_append]
        by_cases hss : s2 = s
        · have hbe : matchSender (some s) { sender := s2, payload := m } = true := by
            simp [matchSender, hss]
          have : ([{ sender := s2, payload := m }] : List MailMsg).filter
              (matchSender (some s)) = [{ sender := s2, payload := m }] := by
            simp [List.filter_cons, hbe]
          rw [this]
          simp [sentFrom, hss]
        · have hbe : matchSender (some s) { sender := s2, payload := m } = false := by
            simp [matchSender, hss]
          have : ([{ sender := s2, payload := m }] : List MailMsg).filter
              (matchSender (some s)) = [] := by
            simp [List.filter_cons, hbe]
          rw [this]
          simp [sentFrom, hss]
    | recv flt =>
      cases hscan : recvScan (matchSender flt) inbox with
      | none =>
        refine ⟨(inbox.filter (matchSender (some s))).map MailMsg.payload ++
          sentFrom s (MOp.recv flt :: rest), ?_⟩
        simp [runMail, hscan]
      | some r =>
        have hrun : (runMail (MOp.recv flt :: rest) inbox).2 =
            r.1 :: (runMail rest r.2).2 := by
          simp [runMail, hscan]
        obtain ⟨t, ht⟩ := ih r.2
        cases hm : matchSender (some s) r.1 with
        | false =>
          refine ⟨t, ?_⟩
          rw [hrun]
          have hfil := recvScan_filter_other (matchSender flt) (matchSender (some s))
            inbox r hscan hm
          rw [hfil]
          simp only [List.filter_cons, hm]
          simpa [sentFrom] using ht
        | true =>
          have hfil : inbox.filter (matchSender (some s)) =
              r.1 :: r.2.filter (matchSender (some s)) := by
            cases flt with
            | none =>
              rw [recvScan_any inbox r hscan]
              simp [List.filter_cons, hm]
            | some s2 =>
              have h1 := recvScan_filter_self (matchSender (some s2)) inbox r hscan
              have hs2 : s2 = s := by
                have hp := h1.1
                simp [matchSender] at hp hm
                omega
              subst hs2
              exact h1.2
          refine ⟨t, ?_⟩
          rw [hrun, hfil]
          simp only [List.filter_cons, hm, List.map_cons, List.cons_append]
          have ht2 : (r.2.filter (matchSender (some s))).map MailMsg.payload ++
              sentFrom s rest =
              ((runMail rest r.2).2.filter (matchSender (some s))).map MailMsg.payload
                ++ t := ht
          simp [sentFrom]
          exact ht2

/-- Claim C3: messages from the same sender are received in send order —
over any linearized run of sends and receives (with any sender filters)
starting from an empty inbox, the messages received from sender `s`, in
completion order, are exactly an initial segment of the messages `s` sent,
in send order. The mailbox write pointer appends, and removal (a shift-down
of the later slots) deletes exactly one entry keeping order, so no receive
can overtake an earlier message. -/
theorem C3_mailbox_fifo_per_sender (s : Nat) (ops : List MOp) :
    (((runMail ops []).2.filter (matchSender (some s))).map MailMsg.payload) =
      (sentFrom s ops).take
        ((((runMail ops []).2.filter (matchSender (some s))).map MailMsg.payload).length) := by
  obtain ⟨t, ht⟩ := runMail_fifo_invariant s ops []
  simp only [List.filter_nil, List.map_nil, List.nil_append] at ht
  rw [ht]
  exact (List.take_left _ _).symm

/-- Witness for C3 at a concrete interleaving: sender 1 sends 10 and 20
with a message from sender 2 in between; receives (one filtered on sender
1, one unfiltered, one filtered) hand back sender 1's messages as `[10, 20]`
— the send order. -/
theorem C3_mailbox_fifo_witness :
    (((runMail [MOp.send 1 10, MOp.send 2 99, MOp.send 1 20,
        MOp.recv (some 1), MOp.recv none, MOp.recv (some 1)] []).2.filter
          (matchSender (some 1))).map MailMsg.payload) = [10, 20] := by
  have h := C3_mailbox_fifo_per_sender 1
    [MOp.send 1 10, MOp.send 2 99, MOp.send 1 20,
      MOp.recv (some 1), MOp.recv none, MOp.recv (some 1)]
  rw [h]
  rfl

theorem writeBytesL_get :
    ∀ (bs : List Nat) (m : Nat → Nat) (off a : Nat),
      writeBytesL m off bs a =
        if off ≤ a ∧ a < off + bs.length then bs.getD (a - off) 0 else m a := by
  intro bs
  induction bs with
  | nil =>
    intro m off a
    simp only [writeBytesL, List.length_nil, Nat.add_zero]
    rw [if_neg (by omega)]
  | cons b bs ih =>
    intro m off a
    rw [writeBytesL, ih]
    simp only [List.length_cons]
    by_cases h2 : a = off
    · subst h2
      rw [if_neg (by omega), if_pos (by omega)]
      unfold writeByte
      rw [if_pos rfl, Nat.sub_self, List.getD_cons_zero]
    · by_cases h1 : off + 1 ≤ a ∧ a < off + 1 + bs.length
      · rw [if_pos h1, if_pos (by omega)]
        obtain ⟨k, hk⟩ : ∃ k, a - off = k + 1 := ⟨a - off - 1, by omega⟩
        rw [hk, List.getD_cons_succ]
        congr 1
        omega
      · rw [if_neg h1, if_neg (by omega)]
        unfold writeByte
        rw [if_neg h2]

theorem prepare_empty_store (appLen : Nat) (hpos : 0 < appLen) (b : Nat) :
    (internal_prepare_append (idris_buffer_allocate 0) 0 appLen).store b = 0 := by
  have hcap : (idris_buffer_allocate 0).cap = 0 := by decide
  unfold internal_prepare_append
  rw [if_pos (Or.inr (by rw [hcap]; omega))]
  show copyFrom (internal_allocate (0 + appLen)).store (idris_buffer_allocate 0).store 0 b = 0
  unfold copyFrom
  rw [if_neg (by omega)]
  rfl

theorem append_empty_store (bs : List Nat) (hbs : 0 < bs.length) (a : Nat) :
    (internal_append_bits (idris_buffer_allocate 0) 0 1 bs).store a =
      if a < bs.length then bs.getD a 0 else 0 := by
  show writeRep (internal_prepare_append (idris_buffer_allocate 0) 0
    (1 * bs.length)).store 0 bs 1 a = _
  rw [show (1 : Nat) = 0 + 1 from rfl, writeRep, writeRep]
  rw [writeBytesL_get]
  by_cases h : a < bs.length
  · rw [if_pos (by omega), if_pos h, Nat.sub_zero]
  · rw [if_neg (by omega), if_neg h]
    exact prepare_empty_store _ (by omega) a

theorem appendB8_empty_store (v a : Nat) :
    (idris_appendB8Native (idris_buffer_allocate 0) 0 1 v).store a =
      if a = 0 then v % 256 else 0 := by
  show memsetRange (internal_prepare_append (idris_buffer_allocate 0) 0 1).store
    0 v 1 a = _
  unfold memsetRange
  by_cases h : a = 0
  · rw [if_pos (by omega), if_pos h]
  · rw [if_neg (by omega), if_neg h]
    exact prepare_empty_store 1 (by omega) a

/-- Claim C5: for every width `N ∈ {8,16,32,64}` and representable `v`, the
LE, BE and Native append/peek pairs round-trip on an empty buffer, reading
an LE-appended value with the BE peek yields its byte swap, and an LE
append puts the low byte at offset 0 while a BE append puts the high byte
there. (The 8-bit LE/BE entry points are modelled from the spec's
interface list, a byte having no byte order; `hostLE` is the machine byte
order the Native forms copy in.) -/
theorem C5_endianness_roundTrip (hostLE : Bool) (v8 v16 v32 v64 : Nat)
    (h8 : v8 < 256) (h16 : v16 < 65536) (h32 : v32 < 4294967296)
    (h64 : v64 < 18446744073709551616) :
    C5Post hostLE v8 v16 v32 v64 := by
  have e8 := appendB8_empty_store v8
  have e8le := append_empty_store [v8 % 256] (by simp)
  have e16le := append_empty_store
    [v16 % 256, v16 / 256 % 256, 0, 0, 0, 0, 0, 0] (by simp)
  have e16be := append_empty_store
    [v16 / 256 % 256, v16 % 256, 0, 0, 0, 0, 0, 0] (by simp)
  have e16n1 := append_empty_store [v16 % 256, v16 / 256 % 256] (by simp)
  have e16n2 := append_empty_store [v16 / 256 % 256, v16 % 256] (by simp)
  have e32le := append_empty_store
    [v32 % 256, v32 / 256 % 256, v32 / 65536 % 256, v32 / 16777216 % 256,
     0, 0, 0, 0] (by simp)
  have e32be := append_empty_store
    [v32 / 16777216 % 256, v32 / 65536 % 256, v32 / 256 % 256, v32 % 256,
     0, 0, 0, 0] (by simp)
  have e32n1 := append_empty_store
    [v32 % 256, v32 / 256 % 256, v32 / 65536 % 256, v32 / 16777216 % 256] (by simp)
  have e32n2 := append_empty_store
    [v32 / 16777216 % 256, v32 / 65536 % 256, v32 / 256 % 256, v32 % 256] (by simp)
  have e64le := append_empty_store
    [v64 % 256, v64 / 256 % 256, v64 / 65536 % 256, v64 / 16777216 % 256,
     v64 / 4294967296 % 256, v64 / 1099511627776 % 256,
     v64 / 281474976710656 % 256, v64 / 72057594037927936 % 256] (by simp)
  have e64be := append_empty_store
    [v64 / 72057594037927936 % 256, v64 / 281474976710656 % 256,
     v64 / 1099511627776 % 256, v64 / 4294967296 % 256,
     v64 / 16777216 % 256, v64 / 65536 % 256, v64 / 256 % 256, v64 % 256] (by simp)
  unfold C5Post
  refine ⟨?_, ?_, ?_, ?_, ?_, ?_, ?_, ?_, ?_, ?_, ?_, ?_, ?_, ?_, ?_, ?_,
    ?_, ?_, ?_, ?_, ?_, ?_⟩
  · simp only [idris_peekB8Native, e8] <;> norm_num <;> omega
  · simp [idris_peekB8LE, idris_appendB8LE, e8le] <;> omega
  · simp [idris_peekB8BE, idris_appendB8BE, e8le] <;> omega
  · simp [idris_peekB8BE, idris_appendB8LE, byteswap8, e8le] <;> omega
  · simp [idris_peekB16LE, idris_appendB16LE, e16le] <;> omega
  · simp [idris_peekB16BE, idris_appendB16BE, e16be] <;> omega
  · cases hostLE with
    | true => simp [idris_peekB16Native, idris_appendB16Native, e16n1] <;> omega
    | false => simp [idris_peekB16Native, idris_appendB16Native, e16n2] <;> omega
  · simp [idris_peekB16BE, idris_appendB16LE, byteswap16, e16le] <;> omega
  · simp [idris_appendB16LE, e16le] <;> omega
  · simp [idris_appendB16BE, e16be] <;> omega
  · simp [idris_peekB32LE, idris_appendB32LE, e32le] <;> omega
  · simp [idris_peekB32BE, idris_appendB32BE, e32be] <;> omega
  · cases hostLE with
    | true => simp [idris_peekB32Native, idris_appendB32Native, e32n1] <;> omega
    | false => simp [idris_peekB32Native, idris_appendB32Native, e32n2] <;> omega
  · simp [idris_peekB32BE, idris_appendB32LE, byteswap32, e32le] <;> omega
  · simp [idris_appendB32LE, e32le] <;> omega
  · simp [idris_appendB32BE, e32be] <;> omega
  · simp [idris_peekB64LE, idris_appendB64LE, e64le] <;> omega
  · simp [idris_peekB64BE, idris_appendB64BE, e64be] <;> omega
  · cases hostLE with
    | true =>
      simp [idris_peekB64Native, idris_appendB64Native, idris_peekB64LE, e64le]
        <;> omega
    | false =>
      simp [idris_peekB64Native, idris_appendB64Native, idris_peekB64BE, e64be]
        <;> omega
  · simp [idris_peekB64BE, idris_appendB64LE, byteswap64, e64le] <;> omega
  · simp [idris_appendB64LE, e64le] <;> omega
  · simp [idris_appendB64BE, e64be] <;> omega

/-- Witness for C5: one representable value per width, little-endian host. -/
theorem C5_witness :
    ((171 : Nat) < 256 ∧ (43981 : Nat) < 65536 ∧ (2882343476 : Nat) < 4294967296 ∧
      (1311768467463790320 : Nat) < 18446744073709551616) ∧
    C5Post true 171 43981 2882343476 1311768467463790320 :=
  ⟨⟨by norm_num, by norm_num, by norm_num, by norm_num⟩,
    C5_endianness_roundTrip true 171 43981 2882343476 1311768467463790320
      (by norm_num) (by norm_num) (by norm_num) (by norm_num)⟩

theorem round8_mod (s : Nat) : round8 s % 8 = 0 := by
  unfold round8
  split <;> omega

theorem round8_ge (s : Nat) : s ≤ round8 s := by
  unfold round8
  split <;> omega

theorem chunkOf_mod (s : Nat) : chunkOf s % 8 = 0 := by
  have := round8_mod s
  unfold chunkOf wordBytes
  omega

theorem zeroFill_lower (m : Nat → Nat) (off len a : Nat) (h : a < off) :
    zeroFill m off len a = m a := by
  unfold zeroFill
  rw [if_neg (by omega)]

theorem zeroFill_get (m : Nat → Nat) (off len a : Nat) (h1 : off ≤ a)
    (h2 : a < off + len) : zeroFill m off len a = 0 := by
  unfold zeroFill
  rw [if_pos ⟨h1, h2⟩]

theorem writeWord_lower (m : Nat → Nat) (off v a : Nat) (h : a < off) :
    writeWord m off v a = m a := by
  unfold writeWord
  rw [if_neg (by omega)]

theorem writeWord_get (m : Nat → Nat) (off v j : Nat) (hj : j < 8) :
    writeWord m off v (off + j) = v / 256 ^ j % 256 := by
  unfold writeWord
  rw [if_pos ⟨by omega, by omega⟩, Nat.add_sub_cancel_left]

theorem word_roundTrip (v : Nat) (hv : v < 18446744073709551616) :
    v / 256 ^ 0 % 256 + v / 256 ^ 1 % 256 * 256 + v / 256 ^ 2 % 256 * 65536 +
      v / 256 ^ 3 % 256 * 16777216 + v / 256 ^ 4 % 256 * 4294967296 +
      v / 256 ^ 5 % 256 * 1099511627776 + v / 256 ^ 6 % 256 * 281474976710656 +
      v / 256 ^ 7 % 256 * 72057594037927936 = v := by
  norm_num
  omega

theorem allocate_fit (s : Nat) (h : Heap) (hfit : h.next + chunkOf s < h.heapEnd) :
    allocate s h =
      { ptr := h.next + wordBytes
        heap := { next := h.next + chunkOf s
                  heapEnd := h.heapEnd
                  mem := zeroFill (writeWord h.mem h.next (chunkOf s))
                    (h.next + wordBytes) (round8 s)
                  collections := h.collections }
        gcRan := false } := by
  simp only [allocate]
  rw [if_pos (show h.next + (round8 s + wordBytes) < h.heapEnd from hfit)]
  rfl

theorem allocSeq_spec :
    ∀ (sizes : List Nat) (h : Heap),
      h.next + (sizes.map chunkOf).sum < h.heapEnd →
      (allocSeq sizes h).1 = scanPtrs h.next sizes ∧
      (allocSeq sizes h).2.2 = false ∧
      (allocSeq sizes h).2.1.next = h.next + (sizes.map chunkOf).sum ∧
      (allocSeq sizes h).2.1.heapEnd = h.heapEnd ∧
      (∀ a, a < h.next → (allocSeq sizes h).2.1.mem a = h.mem a) := by
  intro sizes
  induction sizes with
  | nil =>
    intro h _
    exact ⟨rfl, rfl, by simp [allocSeq], rfl, fun a _ => rfl⟩
  | cons s rest ih =>
    intro h hfit
    have hsum : ((s :: rest).map chunkOf).sum =
        chunkOf s + (rest.map chunkOf).sum := by simp
    have hfit1 : h.next + chunkOf s < h.heapEnd := by omega
    have hA := allocate_fit s h hfit1
    simp only [allocSeq]
    rw [hA]
    dsimp only
    obtain ⟨ihl, ihg, ihn, ihe, ihm⟩ := ih
      { next := h.next + chunkOf s, heapEnd := h.heapEnd
        mem := zeroFill (writeWord h.mem h.next (chunkOf s))
          (h.next + wordBytes) (round8 s)
        collections := h.collections } (by dsimp only; omega)
    dsimp only at ihl ihg ihn ihe ihm
    refine ⟨?_, ?_, ?_, ?_, ?_⟩
    · rw [ihl]
      rfl
    · rw [ihg]
      rfl
    · rw [ihn, hsum]
      omega
    · rw [ihe]
    · intro a ha
      rw [ihm a (by omega)]
      rw [zeroFill_lower _ _ _ _ (by unfold wordBytes; omega),
        writeWord_lower _ _ _ _ (by omega)]

theorem allocSeq_chunks :
    ∀ (sizes : List Nat) (h : Heap),
      h.next + (sizes.map chunkOf).sum < h.heapEnd →
      (∀ s ∈ sizes, chunkOf s < 18446744073709551616) →
      ∀ i, i < sizes.length →
        (∀ k, k < round8 (sizes.getD i 0) →
          (allocSeq sizes h).2.1.mem ((scanPtrs h.next sizes).getD i 0 + k) = 0) ∧
        decodeWord (allocSeq sizes h).2.1.mem
            ((scanPtrs h.next sizes).getD i 0 - wordBytes) =
          chunkOf (sizes.getD i 0) := by
  intro sizes
  induction sizes with
  | nil =>
    intro h _ _ i hi
    simp at hi
  | cons s rest ih =>
    intro h hfit hword i hi
    have hsum : ((s :: rest).map chunkOf).sum =
        chunkOf s + (rest.map chunkOf).sum := by simp
    have hfit1 : h.next + chunkOf s < h.heapEnd := by omega
    have hA := allocate_fit s h hfit1
    have hfit2 : h.next + chunkOf s + (rest.map chunkOf).sum < h.heapEnd := by omega
    cases i with
    | zero =>
      simp only [allocSeq, scanPtrs, List.getD_cons_zero]
      rw [hA]
      dsimp only
      have hmem := (allocSeq_spec rest
        { next := h.next + chunkOf s, heapEnd := h.heapEnd
          mem := zeroFill (writeWord h.mem h.next (chunkOf s))
            (h.next + wordBytes) (round8 s)
          collections := h.collections } (by dsimp only; omega)).2.2.2.2
      dsimp only at hmem
      have hwb : wordBytes = 8 := rfl
      have hck : chunkOf s = round8 s + 8 := rfl
      constructor
      · intro k hk
        rw [hmem _ (by omega)]
        exact zeroFill_get _ _ _ _ (by omega) (by omega)
      · have hget : ∀ j, j < 8 →
            (allocSeq rest
              { next := h.next + chunkOf s, heapEnd := h.heapEnd
                mem := zeroFill (writeWord h.mem h.next (chunkOf s))
                  (h.next + wordBytes) (round8 s)
                collections := h.collections }).2.1.mem (h.next + j) =
            chunkOf s / 256 ^ j % 256 := by
          intro j hj
          rw [hmem _ (by omega)]
          rw [zeroFill_lower _ _ _ _ (by omega)]
          exact writeWord_get _ _ _ _ hj
        have hget0 : (allocSeq rest
            { next := h.next + chunkOf s, heapEnd := h.heapEnd
              mem := zeroFill (writeWord h.mem h.next (chunkOf s))
                (h.next + wordBytes) (round8 s)
              collections := h.collections }).2.1.mem h.next =
            chunkOf s / 256 ^ 0 % 256 := by
          have h0 := hget 0 (by omega)
          rwa [Nat.add_zero] at h0
        rw [show h.next + wordBytes - wordBytes = h.next by omega]
        unfold decodeWord
        rw [hget0, hget 1 (by omega), hget 2 (by omega),
          hget 3 (by omega), hget 4 (by omega), hget 5 (by omega),
          hget 6 (by omega), hget 7 (by omega)]
        exact word_roundTrip _ (hword s (by simp))
    | succ i' =>
      simp only [List.length_cons] at hi
      simp only [allocSeq, scanPtrs, List.getD_cons_succ]
      rw [hA]
      dsimp only
      have hrec := ih
        { next := h.next + chunkOf s, heapEnd := h.heapEnd
          mem := zeroFill (writeWord h.mem h.next (chunkOf s))
            (h.next + wordBytes) (round8 s)
          collections := h.collections } (by dsimp only; omega)
        (fun x hx => hword x (by simp [hx])) i' (by omega)
      dsimp only at hrec
      exact hrec

theorem scanPtrs_getD :
    ∀ (sizes : List Nat) (next i : Nat), i < sizes.length →
      (scanPtrs next sizes).getD i 0 =
        next + wordBytes + ((sizes.take i).map chunkOf).sum := by
  intro sizes
  induction sizes with
  | nil => intro next i hi; simp at hi
  | cons s rest ih =>
    intro next i hi
    cases i with
    | zero => simp [scanPtrs]
    | succ i' =>
      simp only [scanPtrs, List.getD_cons_succ, List.take_succ_cons,
        List.map_cons, List.sum_cons]
      rw [ih (next + chunkOf s) i' (by simpa using hi)]
      omega

theorem take_sum_succ :
    ∀ (l : List Nat) (i : Nat), i < l.length →
      ((l.take (i + 1)).map chunkOf).sum =
        ((l.take i).map chunkOf).sum + chunkOf (l.getD i 0) := by
  intro l
  induction l with
  | nil => intro i hi; simp at hi
  | cons s rest ih =>
    intro i hi
    cases i with
    | zero => simp
    | succ i' =>
      simp only [List.take_succ_cons, List.map_cons, List.sum_cons,
        List.getD_cons_succ]
      rw [ih i' (by simpa using hi)]
      omega

theorem take_sum_mono :
    ∀ (l : List Nat) (i j : Nat), i ≤ j →
      ((l.take i).map chunkOf).sum ≤ ((l.take j).map chunkOf).sum := by
  intro l
  induction l with
  | nil => intro i j _; simp
  | cons s rest ih =>
    intro i j hij
    cases i with
    | zero => simp
    | succ i' =>
      cases j with
      | zero => omega
      | succ j' =>
        simp only [List.take_succ_cons, List.map_cons, List.sum_cons]
        have := ih i' j' (by omega)
        omega

theorem take_sum_le (l : List Nat) (i : Nat) :
    ((l.take i).map chunkOf).sum ≤ ((l.map chunkOf)).sum := by
  conv_rhs => rw [← List.take_append_drop i l]
  rw [List.map_append, List.sum_append]
  omega

theorem getD_mem : ∀ (l : List Nat) (i : Nat), i < l.length → l.getD i 0 ∈ l := by
  intro l
  induction l with
  | nil => intro i hi; simp at hi
  | cons s rest ih =>
    intro i hi
    cases i with
    | zero => simp
    | succ i' =>
      simp only [List.getD_cons_succ]
      exact List.mem_cons_of_mem s (ih i' (by simpa using hi))

theorem chunk_sum_mod8 : ∀ (l : List Nat), ((l.map chunkOf).sum) % 8 = 0 := by
  intro l
  induction l with
  | nil => simp
  | cons s rest ih =>
    simp only [List.map_cons, List.sum_cons]
    have := chunkOf_mod s
    omega

/-- Claim C1 (counterexample): on a heap with 16 free bytes,
`idris_requireAlloc(8)` succeeds without collecting (8 reserved raw bytes
fit), and the scope then performs a single `allocate(8)` — its allocations
total 8 ≤ 8 raw bytes — yet the allocator collects, because the allocation
actually consumes `round8(8) + 8 = 16` bytes of headroom. -/
theorem C1_counterexample :
    (idris_requireAlloc 8 (freshHeap 16)).2 = false ∧
    (idris_requireAlloc 8 (freshHeap 16)).1 = freshHeap 16 ∧
    ([8] : List Nat).sum ≤ 8 ∧
    (allocSeq [8] (idris_requireAlloc 8 (freshHeap 16)).1).2.2 = true :=
  ⟨rfl, rfl, by norm_num, rfl⟩

/-- Claim C1 (amended): in any state where `next + size < end` — which is
what `idris_requireAlloc(size)` establishes (when the guard already holds
it neither collects nor changes the heap) — a sequence of scope
allocations whose *chunk* totals `Σ(round8(sᵢ) + word)` stay within `size`
triggers no collection, and the bump pointer moves exactly by the scope's
own chunks. Budgeting raw byte totals is not enough: each allocation
consumes `round8(sᵢ) + word` bytes of the reserve. -/
theorem C1_requireAlloc_scope (h : Heap) (size : Nat) (sizes : List Nat)
    (hg : h.next + size < h.heapEnd)
    (hsum : (sizes.map chunkOf).sum ≤ size) :
    C1Post size sizes h := by
  have hra : idris_requireAlloc size h = (h, false) := by
    unfold idris_requireAlloc
    rw [if_pos hg]
  have hfit : h.next + (sizes.map chunkOf).sum < h.heapEnd := by omega
  obtain ⟨_, hgc, hn, _, _⟩ := allocSeq_spec sizes h hfit
  exact ⟨by rw [hra], by rw [hra], hgc, hn⟩

/-- Witness for C1 (amended): reserve 24 bytes, then allocate 8 raw bytes
(one 16-byte chunk) on a 64-byte heap. -/
theorem C1_requireAlloc_scope_witness :
    ((freshHeap 64).next + 24 < (freshHeap 64).heapEnd ∧
      (([8] : List Nat).map chunkOf).sum ≤ 24) ∧
    C1Post 24 [8] (freshHeap 64) :=
  ⟨⟨by norm_num [freshHeap], by norm_num [chunkOf, round8, wordBytes]⟩,
    C1_requireAlloc_scope (freshHeap 64) 24 [8] (by norm_num [freshHeap])
      (by norm_num [chunkOf, round8, wordBytes])⟩

/-- Claim C2 (counterexample): with `heap_size = 16` and a single
allocation of 8 bytes, `Σ(round8(sᵢ) + word) = 16 ≤ heap_size`, yet a
collection runs: the allocator's fit test is the strict
`next + chunk_size < end`, so exactly filling the heap misses it. -/
theorem C2_counterexample :
    ((([8] : List Nat).map chunkOf).sum ≤ 16) ∧
    (allocSeq [8] (freshHeap 16)).2.2 = true :=
  ⟨by norm_num [chunkOf, round8, wordBytes], rfl⟩

/-- Claim C2 (amended): on a fresh heap of size `heap_size` (a machine-word
quantity), a sequence of allocations with `Σ(round8(sᵢ) + word)` *strictly
less than* `heap_size` triggers no collection, and every returned pointer
is 8-byte aligned, the payload regions are pairwise non-overlapping, every
payload byte is zero, and each chunk carries its word-sized length prefix.
(Strictness is forced by the allocator's strict `next + chunk < end` test;
the claim's `≤` fails at equality.) -/
theorem C2_alloc_sequence (heapSize : Nat) (sizes : List Nat)
    (hsum : (sizes.map chunkOf).sum < heapSize)
    (hw : heapSize ≤ 18446744073709551616) :
    C2Post heapSize sizes := by
  have hfit : (freshHeap heapSize).next + (sizes.map chunkOf).sum <
      (freshHeap heapSize).heapEnd := by
    dsimp only [freshHeap]
    omega
  have hword : ∀ s ∈ sizes, chunkOf s < 18446744073709551616 := by
    intro s hs
    have hmem : chunkOf s ∈ sizes.map chunkOf := List.mem_map_of_mem chunkOf hs
    have := List.single_le_sum (fun x _ => Nat.zero_le x) _ hmem
    omega
  obtain ⟨hl, hg, _, _, _⟩ := allocSeq_spec sizes (freshHeap heapSize) hfit
  have hchunks := allocSeq_chunks sizes (freshHeap heapSize) hfit hword
  have hnext0 : (freshHeap heapSize).next = 0 := rfl
  rw [hnext0] at hl hchunks
  have hwb : wordBytes = 8 := rfl
  refine ⟨hg, ?_, ?_, ?_, ?_⟩
  · intro i hi
    rw [hl, scanPtrs_getD sizes 0 i hi]
    have := chunk_sum_mod8 (sizes.take i)
    omega
  · intro i j hij hj
    rw [hl, scanPtrs_getD sizes 0 i (by omega), scanPtrs_getD sizes 0 j hj]
    have hsucc := take_sum_succ sizes i (by omega)
    have hmono := take_sum_mono sizes (i + 1) j (by omega)
    have hck : chunkOf (sizes.getD i 0) = round8 (sizes.getD i 0) + 8 := rfl
    omega
  · intro i hi k hk
    rw [hl]
    exact (hchunks i hi).1 k hk
  · intro i hi
    rw [hl]
    exact (hchunks i hi).2

/-- Witness for C2 (amended): sizes `[3, 8, 5]` (chunks 16 + 16 + 16 = 48)
on a fresh 64-byte heap. -/
theorem C2_alloc_sequence_witness :
    ((([3, 8, 5] : List Nat).map chunkOf).sum < 64 ∧
      (64 : Nat) ≤ 18446744073709551616) ∧
    C2Post 64 [3, 8, 5] :=
  ⟨⟨by norm_num [chunkOf, round8, wordBytes], by norm_num⟩,
    C2_alloc_sequence 64 [3, 8, 5] (by norm_num [chunkOf, round8, wordBytes])
      (by norm_num)⟩

theorem revLoop_get (xs : List Nat) (base : Nat) :
    ∀ (x : Nat) (m : Nat → Nat) (y a : Nat),
      revLoop xs base m x y a =
        if base + y ≤ a ∧ a < base + y + x then
          xs.getD (x - 1 - (a - (base + y))) 0
        else m a := by
  intro x
  induction x with
  | zero =>
    intro m y a
    rw [revLoop, if_neg (by omega)]
  | succ x' ih =>
    intro m y a
    rw [revLoop, ih]
    by_cases h2 : a = base + y
    · rw [if_neg (by omega), if_pos (by omega)]
      unfold writeByte
      rw [if_pos h2]
      congr 1
      omega
    · by_cases h1 : base + (y + 1) ≤ a ∧ a < base + (y + 1) + x'
      · rw [if_pos h1, if_pos (by omega)]
        congr 1
        omega
      · rw [if_neg h1, if_neg (by omega)]
        unfold writeByte
        rw [if_neg h2]

/-- Claim C10: `idris_strRev` (given room) collects nothing and produces
the exact byte reversal of its input, NUL-terminated at index `len`; that
terminator byte is untouched by `strRev`'s own stores — it is exactly the
byte `allocate`'s zero-fill left — because the loop writes indices
`0..len-1` and the explicit `'\0'` lands at index `len + 1`, one byte past
the `len + 1` string bytes requested. -/
theorem C10_strRev_reverses (xs : List Nat) (h : Heap)
    (hfit : h.next + chunkOf (sizeofClosure + xs.length + 1) < h.heapEnd) :
    C10Post xs h := by
  have hA := allocate_fit (sizeofClosure + xs.length + 1) h hfit
  have hr8 := round8_ge (sizeofClosure + xs.length + 1)
  have hsc : sizeofClosure = 16 := rfl
  have hwb : wordBytes = 8 := rfl
  unfold C10Post idris_strRev
  rw [hA]
  dsimp only
  have hzero : zeroFill (writeWord h.mem h.next (chunkOf (sizeofClosure + xs.length + 1)))
      (h.next + wordBytes) (round8 (sizeofClosure + xs.length + 1))
      (h.next + wordBytes + sizeofClosure + xs.length) = 0 :=
    zeroFill_get _ _ _ _ (by omega) (by omega)
  refine ⟨rfl, ?_, ?_, ?_, ?_⟩
  · intro i hi
    rw [revLoop_get, if_pos (by omega)]
    congr 1
    omega
  · rw [revLoop_get, if_neg (by omega)]
    unfold writeByte
    rw [if_neg (by omega)]
    exact hzero
  · rw [revLoop_get, if_neg (by omega)]
    unfold writeByte
    rw [if_neg (by omega)]
  · rw [revLoop_get, if_neg (by omega)]
    unfold writeByte
    rw [if_pos (by omega)]

/-- Witness for C10 at the two-byte string `"hi"` on a fresh 64-byte heap. -/
theorem C10_strRev_witness :
    ((freshHeap 64).next +
        chunkOf (sizeofClosure + ([104, 105] : List Nat).length + 1) <
      (freshHeap 64).heapEnd) ∧
    C10Post [104, 105] (freshHeap 64) :=
  ⟨by norm_num [freshHeap, chunkOf, round8, wordBytes, sizeofClosure],
    C10_strRev_reverses [104, 105] (freshHeap 64)
      (by norm_num [freshHeap, chunkOf, round8, wordBytes, sizeofClosure])⟩

theorem smear_testBit (x i : Nat) :
    (smear x).testBit i = true ↔ ∃ t, t < 512 ∧ x.testBit (i + t) = true := by
  have step : ∀ (y n : Nat),
      (∀ j, y.testBit j = true ↔ ∃ t, t < n ∧ x.testBit (j + t) = true) →
      ∀ j, (y ||| y >>> n).testBit j = true ↔
        ∃ t, t < n + n ∧ x.testBit (j + t) = true := by
    intro y n hy j
    rw [Nat.testBit_or, Nat.testBit_shiftRight]
    constructor
    · intro h
      rw [Bool.or_eq_true] at h
      rcases h with h1 | h1
      · obtain ⟨t, ht, hb⟩ := (hy j).1 h1
        exact ⟨t, by omega, hb⟩
      · obtain ⟨t, ht, hb⟩ := (hy (n + j)).1 h1
        refine ⟨n + t, by omega, ?_⟩
        rw [show j + (n + t) = n + j + t by omega]
        exact hb
    · rintro ⟨t, ht, hb⟩
      rw [Bool.or_eq_true]
      by_cases hc : t < n
      · exact Or.inl ((hy j).2 ⟨t, hc, hb⟩)
      · refine Or.inr ((hy (n + j)).2 ⟨t - n, by omega, ?_⟩)
        rw [show n + j + (t - n) = j + t by omega]
        exact hb
  have base : ∀ j, x.testBit j = true ↔ ∃ t, t < 1 ∧ x.testBit (j + t) = true := by
    intro j
    constructor
    · intro h; exact ⟨0, by omega, by simpa using h⟩
    · rintro ⟨t, ht, hb⟩
      have ht0 : t = 0 := by omega
      subst ht0; simpa using hb
  have h1 := step x 1 base
  have h2 := step _ 2 h1
  have h3 := step _ 4 h2
  have h4 := step _ 8 h3
  have h5 := step _ 16 h4
  have h6 := step _ 32 h5
  have h7 := step _ 64 h6
  have h8 := step _ 128 h7
  have h9 := step _ 256 h8
  exact h9 i

theorem testBit_log2_self (x : Nat) (hx : 0 < x) : x.testBit (Nat.log2 x) = true := by
  rw [Nat.testBit_to_div_mod]
  have h1 : 2 ^ Nat.log2 x ≤ x := Nat.log2_self_le (by omega)
  have h2 : x < 2 ^ (Nat.log2 x + 1) := Nat.lt_log2_self
  have hdiv : x / 2 ^ Nat.log2 x = 1 := by
    apply Nat.div_eq_of_lt_le
    · simpa using h1
    · rw [pow_succ] at h2
      omega
  rw [hdiv]
  decide

theorem smear_eq (x : Nat) (hx : 0 < x) (hb : x < 2 ^ 512) :
    smear x = 2 ^ (Nat.log2 x + 1) - 1 := by
  apply Nat.eq_of_testBit_eq
  intro i
  rw [Nat.testBit_two_pow_sub_one]
  by_cases hi : i < Nat.log2 x + 1
  · rw [decide_eq_true hi]
    apply (smear_testBit x i).2
    refine ⟨Nat.log2 x - i, ?_, ?_⟩
    · have : Nat.log2 x < 512 := (Nat.log2_lt (by omega)).2 hb
      omega
    · rw [show i + (Nat.log2 x - i) = Nat.log2 x by omega]
      exact testBit_log2_self x hx
  · rw [decide_eq_false hi]
    cases hsb : (smear x).testBit i with
    | false => rfl
    | true =>
      exfalso
      obtain ⟨t, ht, hbit⟩ := (smear_testBit x i).1 hsb
      have hlt : x < 2 ^ (i + t) := by
        calc x < 2 ^ (Nat.log2 x + 1) := Nat.lt_log2_self
        _ ≤ 2 ^ (i + t) := Nat.pow_le_pow_right (by omega) (by omega)
      rw [Nat.testBit_lt_two_pow hlt] at hbit
      exact Bool.false_ne_true hbit

theorem p2round_least (s : Nat) (h2 : 2 ≤ s) (hb : s ≤ 2 ^ 512) :
    isLeastPow2Ge s (p2round s) := by
  have hx : 0 < s - 1 := by omega
  have hxb : s - 1 < 2 ^ 512 := by omega
  unfold p2round
  rw [smear_eq (s - 1) hx hxb]
  have hpos : 0 < 2 ^ (Nat.log2 (s - 1) + 1) := Nat.two_pow_pos _
  rw [show 2 ^ (Nat.log2 (s - 1) + 1) - 1 + 1 = 2 ^ (Nat.log2 (s - 1) + 1) by omega]
  refine ⟨⟨Nat.log2 (s - 1) + 1, rfl⟩, ?_, ?_⟩
  · have := Nat.lt_log2_self (n := s - 1)
    omega
  · intro m hm
    have h1 : 2 ^ Nat.log2 (s - 1) ≤ s - 1 := Nat.log2_self_le (by omega)
    have h4 : Nat.log2 (s - 1) < m := by
      by_contra hcon
      push_neg at hcon
      have := Nat.pow_le_pow_right (show 1 ≤ 2 by omega) hcon
      omega
    exact Nat.pow_le_pow_right (by omega) (by omega)

/-- Claim C8 (counterexample): at `hint = 0` the capacity `internal_allocate`
records is `pow2ceil(hint + header) - header = 32 - 32 = 0`, not the power
of two `32` itself that the claim asserts (`header = sizeof(Closure) +
sizeof(Buffer) = 32`, and `32` is the least power of two at least
`0 + header`). -/
theorem C8_counterexample :
    (idris_buffer_allocate 0).fill = 0 ∧
    isLeastPow2Ge (0 + bufHeader) 32 ∧
    (idris_buffer_allocate 0).cap = 0 ∧
    (idris_buffer_allocate 0).cap ≠ 32 := by
  refine ⟨rfl, ⟨⟨5, rfl⟩, by norm_num [bufHeader, sizeofClosure, sizeofBuffer], ?_⟩,
    by decide, by decide⟩
  intro m hm
  have : bufHeader = 32 := rfl
  omega

theorem internal_allocate_cap (hint : Nat) (h : hint + bufHeader ≤ 2 ^ 63) :
    (internal_allocate hint).cap + bufHeader = p2round (hint + bufHeader) := by
  have hbh : bufHeader = 32 := rfl
  have hst : sizeTMod = 18446744073709551616 := rfl
  have h63 : (2 : Nat) ^ 63 = 9223372036854775808 := by norm_num
  have hs0 : (hint + bufHeader) % sizeTMod = hint + bufHeader :=
    Nat.mod_eq_of_lt (by omega)
  have hs1 : (hint + bufHeader + sizeTMod - 1) % sizeTMod =
      hint + bufHeader - 1 := by rw [hst]; omega
  have hx1 : 0 < hint + bufHeader - 1 := by omega
  have hx2 : hint + bufHeader - 1 < 2 ^ 512 := by
    have : (2 : Nat) ^ 63 ≤ 2 ^ 512 := Nat.pow_le_pow_right (by omega) (by omega)
    omega
  have hsm := smear_eq (hint + bufHeader - 1) hx1 hx2
  have hL : Nat.log2 (hint + bufHeader - 1) < 63 :=
    (Nat.log2_lt (by omega)).2 (by omega)
  have hp1 : 2 ^ (Nat.log2 (hint + bufHeader - 1) + 1) ≤ 2 ^ 63 :=
    Nat.pow_le_pow_right (by omega) (by omega)
  have hplt : hint + bufHeader - 1 < 2 ^ (Nat.log2 (hint + bufHeader - 1) + 1) :=
    Nat.lt_log2_self
  have hppos : 0 < 2 ^ (Nat.log2 (hint + bufHeader - 1) + 1) := Nat.two_pow_pos _
  unfold internal_allocate
  dsimp only
  rw [hs0, hs1, hsm]
  unfold p2round
  rw [hsm]
  rw [hst]
  omega

/-- Claim C8 (amended): for every hint for which `hint + header` stays
within the `size_t` computation's range (no wrap, `hint + header ≤ 2^63` —
beyond it the wrapping arithmetic makes the recorded `cap` meaningless),
`idris_buffer_allocate(hint)` returns a BUFFER with `fill = 0` whose
capacity is the smallest power of two that is at least `hint + header`,
*minus the header* (`header = sizeof(Closure) + sizeof(Buffer)`): the
power-of-two round-up is applied to the total allocation size, and `cap`
is what remains after the header. -/
theorem C8_buffer_allocate_capacity (hint : Nat)
    (h : hint + bufHeader ≤ 2 ^ 63) :
    (idris_buffer_allocate hint).fill = 0 ∧
    isLeastPow2Ge (hint + bufHeader)
      ((idris_buffer_allocate hint).cap + bufHeader) := by
  refine ⟨rfl, ?_⟩
  have hcap : (idris_buffer_allocate hint).cap = (internal_allocate hint).cap := rfl
  rw [hcap, internal_allocate_cap hint h]
  apply p2round_least
  · have hbh : bufHeader = 32 := rfl
    omega
  · have hmono : (2 : Nat) ^ 63 ≤ 2 ^ 512 := Nat.pow_le_pow_right (by omega) (by omega)
    omega

/-- Witness for C8 (amended) at `hint = 5`: capacity 32, and `32 + 32 = 64`
is the least power of two at least `5 + 32`. -/
theorem C8_buffer_allocate_witness :
    (5 : Nat) + bufHeader ≤ 2 ^ 63 ∧
    ((idris_buffer_allocate 5).fill = 0 ∧
      isLeastPow2Ge (5 + bufHeader) ((idris_buffer_allocate 5).cap + bufHeader)) :=
  ⟨by norm_num [bufHeader, sizeofClosure, sizeofBuffer],
    C8_buffer_allocate_capacity 5
      (by norm_num [bufHeader, sizeofClosure, sizeofBuffer])⟩

/-- Witness for C6 at `n = -12345`. -/
theorem C6_witness :
    (-1073741824 ≤ (-12345 : Int) ∧ (-12345 : Int) ≤ 1073741824) ∧
    (idris_castStrInt (idris_castIntStr (-12345)) = -12345 ∧
      idris_castStrInt [49, 50, 51, 97, 98, 99] = 0 ∧
      idris_castStrInt [52, 50, 10] = 42) :=
  ⟨⟨by decide, by decide⟩, C6_castIntStr_roundTrip (-12345) (by decide) (by decide)⟩

end IdrisRTS
